import Mathlib

/-!
A shallow embedding of the DiffX parser (`src/lib.rs` of `diffx-rs`), built on the
`combine` 2.x parser-combinator semantics that the source uses.

Modelling decisions, each traceable to the source:
* A combine `RangeStream` over a byte slice is a `Stream`: the full input buffer
  (a `List Nat` of bytes) plus the current byte offset.  `position()` is the offset.
* A combine `ParseResult` is a `PResult`: success or failure, each tagged with the
  `Consumed`/`Empty` flag (`Bool`, `true` = consumed) that combine threads through
  `parse_stream`.  Errors carry the position they were raised at and a kind that
  mirrors the distinct error constructions of the source.
* `&str` values produced by `str::from_utf8_unchecked` on validated-ASCII runs are
  kept as the underlying byte lists.
* Rust `HashMap`s built by `collect()` from an ordered list of pairs are modelled
  as association lists built by a last-wins insert (`collectA`), preserving the
  "later pair overwrites earlier" behaviour.
* The recursion of `DiffxParser::section` (a section's children are sections one
  level deeper) is expressed with an explicit fuel parameter; every nested section
  and every loop iteration consumes at least one byte, so the top-level entry point
  `sectionP` supplies `input.length + 1` fuel, which can never run out on a real
  parse.  Universal theorems quantify over the fuel where it cannot matter.
-/

namespace Diffx

/-- Bytes of the input buffer (each a value in 0..255). -/
abbrev Bytes := List Nat

/-- A combine `RangeStream` over a byte slice: the whole buffer plus an offset. -/
structure Stream where
  input : Bytes
  pos : Nat
deriving DecidableEq, Repr

/-- The not-yet-consumed part of the buffer. -/
def Stream.rest (s : Stream) : Bytes := s.input.drop s.pos

/-- Consume `n` bytes. -/
def Stream.advance (s : Stream) (n : Nat) : Stream := ⟨s.input, s.pos + n⟩

/-- The distinct parse-error constructions of the source, abstracted from the
message strings `lib.rs` builds. -/
inductive ErrKind where
  /-- A literal byte (combine `byte`) was expected and not found. -/
  | expectedByte (b : Nat)
  /-- `take_while1` matched zero bytes. -/
  | expectedToken
  /-- `take(n)` had fewer than `n` bytes left. -/
  | unexpectedEof
  /-- `section`: header depth differed from the expected depth (lib.rs:170-173). -/
  | depthMismatch (d : Nat)
  /-- `section`: unknown `encoding` option value (lib.rs:179-183). -/
  | unknownEncoding (v : Bytes)
  /-- `section_content`: unparsable `content-length` value (lib.rs:215-219). -/
  | invalidContentLength (v : Bytes)
  /-- `section_content`: payload declared utf-8 is not valid UTF-8 (lib.rs:229). -/
  | utf8Error
  /-- Artifact of the fuel encoding; unreachable from the top-level entry point. -/
  | fuelOut
deriving DecidableEq, Repr

/-- A combine `ParseError`: the position it was raised at plus its kind. -/
structure PError where
  pos : Nat
  kind : ErrKind
deriving DecidableEq, Repr

/-- A combine `ParseResult`: `Result<(Output, Consumed<I>), Consumed<ParseError>>`.
The `Bool` is the `Consumed` flag (`true` = `Consumed`, `false` = `Empty`). -/
inductive PResult (α : Type) where
  | ok : Bool → α → Stream → PResult α
  | err : Bool → PError → PResult α
deriving DecidableEq, Repr

/-- A parser in the combine sense: a function from a stream to a parse result. -/
def P (α : Type) := Stream → PResult α

/-- A parser that succeeds without consuming input (combine `value`). -/
def pPure {α : Type} (v : α) : P α := fun s => .ok false v s

/-- Sequencing with combine's `Consumed` bookkeeping: once any input has been
consumed, later failures and successes are reported as consumed. -/
def pbind {α β : Type} (p : P α) (f : α → P β) : P β := fun s =>
  match p s with
  | .err c e => .err c e
  | .ok c v s' =>
    match f v s' with
    | .ok c' w s'' => .ok (c || c') w s''
    | .err c' e => .err (c || c') e

/-- combine `map`. -/
def pmap {α β : Type} (f : α → β) (p : P α) : P β := fun s =>
  match p s with
  | .err c e => .err c e
  | .ok c v s' => .ok c (f v) s'

/-- combine `byte(b)`: consume one byte equal to `b`; mismatch and end of input
are empty (non-consuming) failures. -/
def pByte (b : Nat) : P Nat := fun s =>
  match s.rest with
  | [] => .err false ⟨s.pos, .expectedByte b⟩
  | c :: _ => if c = b then .ok true b (s.advance 1) else .err false ⟨s.pos, .expectedByte b⟩

/-- combine `take_while(p)`: consume the longest matching run; always succeeds,
consumed iff the run is nonempty. -/
def pTakeWhile (p : Nat → Bool) : P Bytes := fun s =>
  let tk := s.rest.takeWhile p
  .ok (decide (tk ≠ [])) tk (s.advance tk.length)

/-- combine `take_while1(p)`: like `take_while` but the run must be nonempty. -/
def pTakeWhile1 (p : Nat → Bool) : P Bytes := fun s =>
  let tk := s.rest.takeWhile p
  if tk = [] then .err false ⟨s.pos, .expectedToken⟩
  else .ok true tk (s.advance tk.length)

/-- combine `take(n)`: consume exactly `n` bytes; fewer left is an empty failure. -/
def pTake (n : Nat) : P Bytes := fun s =>
  if n ≤ s.rest.length then .ok (decide (0 < n)) (s.rest.take n) (s.advance n)
  else .err false ⟨s.pos, .unexpectedEof⟩

/-- combine `optional(p)`: `None` on an empty failure, propagate a consumed one. -/
def pOptional {α : Type} (p : P α) : P (Option α) := fun s =>
  match p s with
  | .ok c v s' => .ok c (some v) s'
  | .err true e => .err true e
  | .err false _ => .ok false none s

/-- combine `skip_many1(byte(b' '))`: one or more spaces. -/
def pSpaces1 : P Unit := fun s =>
  let tk := s.rest.takeWhile (fun c => c == 32)
  if tk = [] then .err false ⟨s.pos, .expectedByte 32⟩
  else .ok true () (s.advance tk.length)

/-- combine `skip_many(byte(b' '))`: zero or more spaces. -/
def pSpaces : P Unit := fun s =>
  let tk := s.rest.takeWhile (fun c => c == 32)
  .ok (decide (tk ≠ [])) () (s.advance tk.length)

/-! ### Association lists standing in for `HashMap` -/

/-- One association list, ordered by first insertion of each key. -/
abbrev AList (α : Type) := List (Bytes × α)

/-- `HashMap::insert`: overwrite the value if the key is present, else append. -/
def insertA {α : Type} : AList α → Bytes → α → AList α
  | [], k, v => [(k, v)]
  | (k', v') :: rest, k, v =>
    if k' = k then (k', v) :: rest else (k', v') :: insertA rest k v

/-- `HashMap::get`. -/
def lookupA {α : Type} : AList α → Bytes → Option α
  | [], _ => none
  | (k', v') :: rest, k => if k' = k then some v' else lookupA rest k

/-- `Vec<(K, V)>::into_iter().collect::<HashMap<_, _>>()`: fold the pairs into a
map, later pairs overwriting earlier ones. -/
def collectA {α : Type} (l : List (Bytes × α)) : AList α :=
  l.foldl (fun m kv => insertA m kv.1 kv.2) []

/-! ### Scalar helpers from the source -/

/-- `is_option_char` (lib.rs:85-90): `[a-zA-Z0-9\-_.]`. -/
def is_option_char (c : Nat) : Bool :=
  (97 ≤ c && c ≤ 122) || (65 ≤ c && c ≤ 90) || (48 ≤ c && c ≤ 57)
    || c == 45 || c == 95 || c == 46

/-- `is_section_header_char` (lib.rs:92-97): `[a-zA-Z\-]`. -/
def is_section_header_char (c : Nat) : Bool :=
  (97 ≤ c && c ≤ 122) || (65 ≤ c && c ≤ 90) || c == 45

/-- The UTF-8 bytes of an ASCII string literal (used only for ASCII text). -/
def strB (s : String) : Bytes := s.data.map Char.toNat

/-- A UTF-8 continuation byte, `0x80..=0xBF`. -/
def utf8Cont (c : Nat) : Bool := 128 ≤ c && c ≤ 191

/-- `str::from_utf8` validity (the exact byte-level UTF-8 rules Rust checks):
ASCII, or a leading byte `0xC2..=0xF4` followed by the admissible continuation
bytes, excluding overlong forms, surrogates and values above `U+10FFFF`. -/
def utf8Valid : Bytes → Bool
  | [] => true
  | c :: rest =>
    if c ≤ 127 then utf8Valid rest
    else if 194 ≤ c && c ≤ 223 then
      match rest with
      | c1 :: r => utf8Cont c1 && utf8Valid r
      | [] => false
    else if c == 224 then
      match rest with
      | c1 :: c2 :: r => (160 ≤ c1 && c1 ≤ 191) && utf8Cont c2 && utf8Valid r
      | _ => false
    else if 225 ≤ c && c ≤ 236 then
      match rest with
      | c1 :: c2 :: r => utf8Cont c1 && utf8Cont c2 && utf8Valid r
      | _ => false
    else if c == 237 then
      match rest with
      | c1 :: c2 :: r => (128 ≤ c1 && c1 ≤ 159) && utf8Cont c2 && utf8Valid r
      | _ => false
    else if 238 ≤ c && c ≤ 239 then
      match rest with
      | c1 :: c2 :: r => utf8Cont c1 && utf8Cont c2 && utf8Valid r
      | _ => false
    else if c == 240 then
      match rest with
      | c1 :: c2 :: c3 :: r => (144 ≤ c1 && c1 ≤ 191) && utf8Cont c2 && utf8Cont c3 && utf8Valid r
      | _ => false
    else if 241 ≤ c && c ≤ 243 then
      match rest with
      | c1 :: c2 :: c3 :: r => utf8Cont c1 && utf8Cont c2 && utf8Cont c3 && utf8Valid r
      | _ => false
    else if c == 244 then
      match rest with
      | c1 :: c2 :: c3 :: r => (128 ≤ c1 && c1 ≤ 143) && utf8Cont c2 && utf8Cont c3 && utf8Valid r
      | _ => false
    else false

/-- A decimal digit byte. -/
def isDigit (c : Nat) : Bool := 48 ≤ c && c ≤ 57

/-- `str::parse::<usize>()` on a 64-bit target, restricted to the option-value
alphabet (which cannot contain `+`): nonempty, all digits, value below `2^64`. -/
def parseUsize (v : Bytes) : Option Nat :=
  if v ≠ [] ∧ v.all isDigit then
    let n := v.foldl (fun a c => a * 10 + (c - 48)) 0
    if n < 2 ^ 64 then some n else none
  else none

/-! ### The data model (lib.rs:15-83) -/

/-- `Encoding` (lib.rs:54-66). -/
inductive Encoding where
  | Binary
  | Utf8
deriving DecidableEq, Repr

/-- `Encoding::from_str` (lib.rs:68-76). -/
def Encoding.from_str (s : Bytes) : Option Encoding :=
  if s = strB "utf-8" then some .Utf8
  else if s = strB "binary" then some .Binary
  else none

/-- `SectionHeader` (lib.rs:78-83). -/
structure SectionHeader where
  depth : Nat
  title : Bytes
  options : AList Bytes
deriving DecidableEq, Repr

mutual
/-- `Section` (lib.rs:15-34): resolved encoding, raw header options, content. -/
inductive Section where
  | mk : Encoding → AList Bytes → SectionContent → Section
/-- `SectionContent` (lib.rs:36-50). -/
inductive SectionContent where
  | ChildSections : List (Bytes × Section) → SectionContent
  | EncodedData : Bytes → SectionContent
  | RawData : Bytes → SectionContent
end

/-- Field accessor for `Section.encoding`. -/
def Section.encoding : Section → Encoding
  | .mk e _ _ => e

/-- Field accessor for `Section.options`. -/
def Section.options : Section → AList Bytes
  | .mk _ o _ => o

/-- Field accessor for `Section.content`. -/
def Section.content : Section → SectionContent
  | .mk _ _ c => c

/-! ### The parsers (lib.rs:99-242) -/

/-- `DiffxParser::option_str` (lib.rs:104-110): `take_while1(is_option_char)`,
reinterpreted as text (we keep the bytes). -/
def option_str : P Bytes := pTakeWhile1 is_option_char

/-- `DiffxParser::option` (lib.rs:115-119): `key = value`. -/
def option : P (Bytes × Bytes) :=
  pbind option_str fun k =>
  pbind (pByte 61) fun _ =>
  pbind option_str fun v =>
  pPure (k, v)

/-- The iteration of combine `sep_by(option, byte(','))` after the first option:
`many(byte(',').with(option))`.  A missing comma is the empty failure that ends
the loop; a comma followed by a bad option is a consumed failure and propagates.
The fuel only bounds the iteration count; each iteration consumes at least one
byte, so the `input.length + 1` supplied by `option_list` never runs out. -/
def pOptionTail : Nat → P (List (Bytes × Bytes))
  | 0 => fun s => .err false ⟨s.pos, .fuelOut⟩
  | fuel + 1 => fun s =>
    match pByte 44 s with
    | .err _ _ => .ok false [] s
    | .ok _ _ s1 =>
      match option s1 with
      | .err _ e => .err true e
      | .ok _ kv s2 =>
        match pOptionTail fuel s2 with
        | .ok _ l s3 => .ok true (kv :: l) s3
        | .err _ e => .err true e

/-- combine `sep_by(option, byte(','))`: zero or more options. -/
def sep_by_options : P (List (Bytes × Bytes)) := fun s =>
  match option s with
  | .err false _ => .ok false [] s
  | .err true e => .err true e
  | .ok c kv s' =>
    match pOptionTail (s'.input.length + 1 - s'.pos) s' with
    | .ok c' l s'' => .ok (c || c') (kv :: l) s''
    | .err c' e => .err (c || c') e

/-- `DiffxParser::option_list` (lib.rs:125-129): the separated options collected
into a map, later pairs overwriting earlier ones. -/
def option_list : P (AList Bytes) := pmap collectA sep_by_options

/-- `DiffxParser::section_header` (lib.rs:132-154):
`#` dots title `:` optional(spaces option-list) spaces `\n`. -/
def section_header : P SectionHeader :=
  pbind (pByte 35) fun _ =>
  pbind (pmap List.length (pTakeWhile (fun c => c == 46))) fun depth =>
  pbind (pTakeWhile is_section_header_char) fun title =>
  pbind (pByte 58) fun _ =>
  pbind (pOptional (pbind pSpaces1 fun _ => option_list)) fun maybeOptions =>
  pbind pSpaces fun _ =>
  pbind (pByte 10) fun _ =>
  pPure ⟨depth, title, maybeOptions.getD []⟩

/-- The child-collection loop `many1(try(section(depth + 1, encoding)))`
(lib.rs:234), with `try` baked in: ANY failure of the child attempt — consumed
or not — ends the loop, restoring the stream to before the attempt.  Returns the
children parsed, the final stream, the accumulated consumed flag, and the error
that ended the loop (which `many1` reports when no child was parsed). -/
def childrenGo (child : P (Bytes × Section)) : Nat → Stream →
    List (Bytes × Section) × Stream × Bool × PError
  | 0, s => ([], s, false, ⟨s.pos, .fuelOut⟩)
  | fuel + 1, s =>
    match child s with
    | .err _ e => ([], s, false, e)
    | .ok c x s' =>
      match childrenGo child fuel s' with
      | (l, s'', c', e) => (x :: l, s'', c || c', e)

/-- `DiffxParser::section_content` (lib.rs:204-242), parameterised by the parser
for one child section (the source's recursive `section(depth + 1, encoding)`). -/
def section_content (child : P (Bytes × Section)) (fuel : Nat)
    (header : SectionHeader) (encoding : Encoding) : P SectionContent := fun s =>
  match lookupA header.options (strB "content-length") with
  | some v =>
    match parseUsize v with
    | none => .err true ⟨s.pos, .invalidContentLength v⟩
    | some n =>
      match pTake n s with
      | .err c e => .err c e
      | .ok c bs s' =>
        match (match encoding with
               | .Binary => some (SectionContent.RawData bs)
               | .Utf8 => if utf8Valid bs then some (SectionContent.EncodedData bs) else none) with
        | none => .err c ⟨s'.pos, .utf8Error⟩
        | some content =>
          match pByte 10 s' with
          | .ok c2 _ s'' => .ok (c || c2) content s''
          | .err c2 e => .err (c || c2) e
  | none =>
    match childrenGo child fuel s with
    | ([], _, _, e) => .err false e
    | (l, s', c, _) => .ok c (.ChildSections (collectA l)) s'

/-- `DiffxParser::section` (lib.rs:160-201) with explicit fuel: parse a header,
check its depth, resolve the encoding against the parent's, then parse the
content.  As in the source, the `Consumed` flag of the header parse is discarded
(`input.into_inner()` at lib.rs:190): the flag of the result is the content
parse's flag alone. -/
def sectionGo : Nat → Nat → Encoding → P (Bytes × Section)
  | 0, _, _ => fun s => .err false ⟨s.pos, .fuelOut⟩
  | fuel + 1, depth, parent_encoding => fun s =>
    match section_header s with
    | .err c e => .err c e
    | .ok _ header s1 =>
      if header.depth ≠ depth then .err true ⟨s.pos, .depthMismatch depth⟩
      else
        match (match lookupA header.options (strB "encoding") with
               | some v => (Encoding.from_str v).elim (Sum.inl v) Sum.inr
               | none => Sum.inr parent_encoding) with
        | Sum.inl v => .err true ⟨s.pos, .unknownEncoding v⟩
        | Sum.inr encoding =>
          match section_content (sectionGo fuel (header.depth + 1) encoding)
                  fuel header encoding s1 with
          | .err c e => .err c e
          | .ok c content s2 =>
            .ok c (header.title, Section.mk encoding header.options content) s2

/-- The `section(depth, parent_encoding)` parser of the source: `sectionGo` with
enough fuel that it can never run out (each nested section and each loop
iteration consumes at least one byte of the buffer). -/
def sectionP (depth : Nat) (parent_encoding : Encoding) : P (Bytes × Section) :=
  fun s => sectionGo (s.input.length + 1) depth parent_encoding s

/-- Encoding resolution as a pure function of the header options and the parent
encoding (the `match` at lib.rs:175-187): `none` means the parse fails with
`UnknownEncoding`. -/
def resolveEnc (options : AList Bytes) (parent : Encoding) : Option Encoding :=
  match lookupA options (strB "encoding") with
  | some v => Encoding.from_str v
  | none => some parent

/-! ### Helper lemmas: streams and `takeWhile` -/

theorem Stream.rest_advance (s : Stream) (n : Nat) :
    (s.advance n).rest = s.rest.drop n := by
  simp [Stream.rest, Stream.advance, List.drop_drop, Nat.add_comm]

theorem Stream.rest_length (s : Stream) : s.rest.length = s.input.length - s.pos := by
  simp [Stream.rest]

theorem takeWhile_all_append (p : Nat → Bool) (l r : Bytes) (hl : l.all p = true)
    (hr : ∀ b, r.head? = some b → p b = false) :
    (l ++ r).takeWhile p = l := by
  induction l with
  | nil =>
    cases r with
    | nil => rfl
    | cons b t => simp [List.takeWhile, hr b rfl]
  | cons a l ih =>
    simp only [List.all_cons, Bool.and_eq_true] at hl
    simp [List.takeWhile, hl.1, ih hl.2]

/-! ### Helper lemmas: association lists -/

theorem insertA_ne_nil {α : Type} (m : AList α) (k : Bytes) (v : α) :
    insertA m k v ≠ [] := by
  cases m with
  | nil => simp [insertA]
  | cons hd tl =>
    simp only [insertA]
    split <;> simp

theorem foldl_insertA_ne_nil {α : Type} (l : List (Bytes × α)) (m : AList α)
    (hm : m ≠ []) : l.foldl (fun m kv => insertA m kv.1 kv.2) m ≠ [] := by
  induction l generalizing m with
  | nil => exact hm
  | cons kv t ih => exact ih _ (insertA_ne_nil _ _ _)

theorem collectA_ne_nil {α : Type} (l : List (Bytes × α)) (h : l ≠ []) :
    collectA l ≠ [] := by
  cases l with
  | nil => exact absurd rfl h
  | cons kv t => exact foldl_insertA_ne_nil t _ (insertA_ne_nil _ _ _)

theorem mem_insertA {α : Type} (m : AList α) (k : Bytes) (v : α) (x : Bytes × α)
    (h : x ∈ insertA m k v) : x = (k, v) ∨ x ∈ m := by
  induction m with
  | nil => simp [insertA] at h; simp [h]
  | cons hd tl ih =>
    simp only [insertA] at h
    split at h
    next heq =>
      rcases List.mem_cons.1 h with h1 | h1
      · subst heq; left; rw [h1]
      · right; exact List.mem_cons_of_mem _ h1
    next =>
      rcases List.mem_cons.1 h with h1 | h1
      · right; simp [h1]
      · rcases ih h1 with h2 | h2
        · left; exact h2
        · right; exact List.mem_cons_of_mem _ h2

theorem mem_foldl_insertA {α : Type} (l : List (Bytes × α)) (m : AList α)
    (x : Bytes × α) (h : x ∈ l.foldl (fun m kv => insertA m kv.1 kv.2) m) :
    x ∈ m ∨ x ∈ l := by
  induction l generalizing m with
  | nil => exact Or.inl h
  | cons kv t ih =>
    rcases ih _ h with h1 | h1
    · rcases mem_insertA _ _ _ _ h1 with h2 | h2
      · right; simp [h2]
      · left; exact h2
    · right; exact List.mem_cons_of_mem _ h1

theorem mem_collectA {α : Type} (l : List (Bytes × α)) (x : Bytes × α)
    (h : x ∈ collectA l) : x ∈ l := by
  rcases mem_foldl_insertA l [] x h with h1 | h1
  · simp at h1
  · exact h1

theorem lookupA_insertA {α : Type} (m : AList α) (k : Bytes) (v : α) (k2 : Bytes) :
    lookupA (insertA m k v) k2 = if k = k2 then some v else lookupA m k2 := by
  induction m with
  | nil => simp [insertA, lookupA]
  | cons hd tl ih =>
    simp only [insertA]
    split
    next heq =>
      subst heq
      simp only [lookupA]
      split <;> simp_all
    next hne =>
      simp only [lookupA, ih]
      split
      next heq2 =>
        subst heq2
        simp [show ¬ (k = hd.1) from fun h => hne h.symm]
      next => rfl

/-- The value of the LAST pair of `l` whose key is `k`, if any: the reference
meaning of "on duplicate keys the later pair overwrites the earlier one". -/
def lastValue {α : Type} (l : List (Bytes × α)) (k : Bytes) : Option α :=
  l.foldl (fun acc kv => if kv.1 = k then some kv.2 else acc) none

theorem lastValue_acc {α : Type} (l : List (Bytes × α)) (k : Bytes) (acc : Option α) :
    l.foldl (fun acc kv => if kv.1 = k then some kv.2 else acc) acc
      = match lastValue l k with
        | some v => some v
        | none => acc := by
  induction l generalizing acc with
  | nil => simp [lastValue]
  | cons kv t ih =>
    show t.foldl _ (if kv.1 = k then some kv.2 else acc) = _
    rw [ih]
    have : lastValue (kv :: t) k
        = t.foldl (fun acc kv => if kv.1 = k then some kv.2 else acc)
            (if kv.1 = k then some kv.2 else none) := rfl
    rw [this, ih]
    cases hlv : lastValue t k with
    | some v => rfl
    | none => by_cases h : kv.1 = k <;> simp [h]

theorem lookupA_foldl_insertA {α : Type} (l : List (Bytes × α)) (m : AList α)
    (k : Bytes) :
    lookupA (l.foldl (fun m kv => insertA m kv.1 kv.2) m) k
      = match lastValue l k with
        | some v => some v
        | none => lookupA m k := by
  induction l generalizing m with
  | nil => simp [lastValue]
  | cons kv t ih =>
    show lookupA (t.foldl _ (insertA m kv.1 kv.2)) k = _
    rw [ih]
    have hl : lastValue (kv :: t) k
        = t.foldl (fun acc kv => if kv.1 = k then some kv.2 else acc)
            (if kv.1 = k then some kv.2 else none) := rfl
    rw [hl, lastValue_acc]
    cases hlv : lastValue t k with
    | some v => rfl
    | none =>
      simp only [lookupA_insertA]
      split <;> rfl

/-- The map the source builds by `collect()` realises last-wins lookup. -/
theorem lookupA_collectA {α : Type} (l : List (Bytes × α)) (k : Bytes) :
    lookupA (collectA l) k = lastValue l k := by
  rw [collectA, lookupA_foldl_insertA]
  cases hlv : lastValue l k with
  | some v => rfl
  | none => rfl

theorem takeWhile_length_le (p : Nat → Bool) (l : Bytes) :
    (l.takeWhile p).length ≤ l.length := by
  induction l with
  | nil => simp
  | cons a t ih =>
    simp only [List.takeWhile]
    cases p a
    · simp
    · simpa using Nat.succ_le_succ ih

/-! ### Bounds: a successful parse stays inside the buffer -/

/-- A parser moves the offset forward, never past the end of the buffer, and
never touches the buffer itself. -/
def Advances {α : Type} (q : P α) : Prop :=
  ∀ s c v s', q s = .ok c v s' →
    s'.input = s.input ∧ s.pos ≤ s'.pos ∧ s'.pos ≤ max s.pos s.input.length

theorem advances_pPure {α : Type} (v : α) : Advances (pPure v) := by
  intro s c w s' h
  simp only [pPure] at h
  cases h
  exact ⟨rfl, le_refl _, le_max_left _ _⟩

theorem advances_advance (s : Stream) (k : Nat) (hk : k ≤ s.rest.length) :
    (s.advance k).input = s.input ∧ s.pos ≤ (s.advance k).pos
      ∧ (s.advance k).pos ≤ max s.pos s.input.length := by
  have := s.rest_length
  refine ⟨rfl, by simp [Stream.advance], ?_⟩
  simp only [Stream.advance]
  omega

theorem advances_pbind {α β : Type} (p : P α) (f : α → P β)
    (hp : Advances p) (hf : ∀ a, Advances (f a)) : Advances (pbind p f) := by
  intro s c v s' h
  simp only [pbind] at h
  cases hps : p s with
  | err c1 e => simp only [hps] at h; cases h
  | ok c1 v1 s1 =>
    simp only [hps] at h
    obtain ⟨h1, h2, h3⟩ := hp s c1 v1 s1 hps
    cases hfs : f v1 s1 with
    | err c2 e => simp only [hfs] at h; cases h
    | ok c2 v2 s2 =>
      simp only [hfs] at h
      injection h with hc hv hs
      subst hc hv hs
      obtain ⟨h4, h5, h6⟩ := (hf v1) s1 c2 v2 s2 hfs
      refine ⟨h4.trans h1, h2.trans h5, ?_⟩
      rw [h1] at h6
      omega

theorem advances_pmap {α β : Type} (f : α → β) (p : P α) (hp : Advances p) :
    Advances (pmap f p) := by
  intro s c v s' h
  simp only [pmap] at h
  cases hps : p s with
  | err c1 e => simp only [hps] at h; cases h
  | ok c1 v1 s1 =>
    simp only [hps] at h
    injection h with hc hv hs
    subst hc hv hs
    exact hp s c1 v1 s1 hps

theorem advances_pByte (b : Nat) : Advances (pByte b) := by
  intro s c v s' h
  simp only [pByte] at h
  cases hr : s.rest with
  | nil => simp only [hr] at h; cases h
  | cons c0 t =>
    simp only [hr] at h
    by_cases hc : c0 = b
    · subst hc
      rw [if_pos rfl] at h
      cases h
      exact advances_advance s 1 (by rw [hr]; simp)
    · rw [if_neg hc] at h
      cases h

theorem advances_pTakeWhile (p : Nat → Bool) : Advances (pTakeWhile p) := by
  intro s c v s' h
  simp only [pTakeWhile] at h
  cases h
  exact advances_advance s _ (takeWhile_length_le p s.rest)

theorem advances_pTakeWhile1 (p : Nat → Bool) : Advances (pTakeWhile1 p) := by
  intro s c v s' h
  simp only [pTakeWhile1] at h
  split at h
  · cases h
  · cases h
    exact advances_advance s _ (takeWhile_length_le p s.rest)

theorem advances_pTake (n : Nat) : Advances (pTake n) := by
  intro s c v s' h
  simp only [pTake] at h
  split at h
  next hle =>
    cases h
    exact advances_advance s n hle
  next => cases h

theorem advances_pOptional {α : Type} (p : P α) (hp : Advances p) :
    Advances (pOptional p) := by
  intro s c v s' h
  simp only [pOptional] at h
  cases hps : p s with
  | ok c1 v1 s1 =>
    simp only [hps] at h
    injection h with hc hv hs
    subst hc hv hs
    exact hp s c1 v1 s1 hps
  | err c1 e =>
    cases c1
    · simp only [hps] at h
      cases h
      exact ⟨rfl, le_refl _, le_max_left _ _⟩
    · simp only [hps] at h
      cases h

theorem advances_pSpaces1 : Advances pSpaces1 := by
  intro s c v s' h
  simp only [pSpaces1] at h
  split at h
  · cases h
  · cases h
    exact advances_advance s _ (takeWhile_length_le _ s.rest)

theorem advances_pSpaces : Advances pSpaces := by
  intro s c v s' h
  simp only [pSpaces] at h
  cases h
  exact advances_advance s _ (takeWhile_length_le _ s.rest)

theorem advances_option_str : Advances option_str :=
  advances_pTakeWhile1 is_option_char

theorem advances_option : Advances option :=
  advances_pbind _ _ advances_option_str fun _ =>
    advances_pbind _ _ (advances_pByte 61) fun _ =>
      advances_pbind _ _ advances_option_str fun _ => advances_pPure _

theorem advances_pOptionTail (fuel : Nat) : Advances (pOptionTail fuel) := by
  induction fuel with
  | zero => intro s c v s' h; cases h
  | succ fuel ih =>
    intro s c v s' h
    simp only [pOptionTail] at h
    cases hb : pByte 44 s with
    | err c1 e =>
      simp only [hb] at h
      cases h
      exact ⟨rfl, le_refl _, le_max_left _ _⟩
    | ok c1 b1 s1 =>
      simp only [hb] at h
      obtain ⟨h1, h2, h3⟩ := advances_pByte 44 s c1 b1 s1 hb
      cases ho : option s1 with
      | err c2 e => simp only [ho] at h; cases h
      | ok c2 kv s2 =>
        simp only [ho] at h
        obtain ⟨h4, h5, h6⟩ := advances_option s1 c2 kv s2 ho
        cases ht : pOptionTail fuel s2 with
        | err c3 e => simp only [ht] at h; cases h
        | ok c3 l s3 =>
          simp only [ht] at h
          injection h with hc hv hs
          subst hc hv hs
          obtain ⟨h7, h8, h9⟩ := ih s2 c3 l s3 ht
          refine ⟨by rw [h7, h4, h1], h2.trans (h5.trans h8), ?_⟩
          rw [h4, h1] at h9
          rw [h1] at h6
          omega

theorem advances_sep_by_options : Advances sep_by_options := by
  intro s c v s' h
  simp only [sep_by_options] at h
  cases ho : option s with
  | err c1 e =>
    cases c1
    · simp only [ho] at h
      cases h
      exact ⟨rfl, le_refl _, le_max_left _ _⟩
    · simp only [ho] at h
      cases h
  | ok c1 kv s1 =>
    simp only [ho] at h
    obtain ⟨h1, h2, h3⟩ := advances_option s c1 kv s1 ho
    cases ht : pOptionTail (s1.input.length + 1 - s1.pos) s1 with
    | err c2 e => simp only [ht] at h; cases h
    | ok c2 l s2 =>
      simp only [ht] at h
      injection h with hc hv hs
      subst hc hv hs
      obtain ⟨h4, h5, h6⟩ := advances_pOptionTail _ s1 c2 l s2 ht
      refine ⟨h4.trans h1, h2.trans h5, ?_⟩
      rw [h1] at h6
      omega

theorem advances_option_list : Advances option_list :=
  advances_pmap _ _ advances_sep_by_options

theorem advances_childrenGo (child : P (Bytes × Section)) (hchild : Advances child) :
    ∀ fuel s l s' cA e, childrenGo child fuel s = (l, s', cA, e) →
      s'.input = s.input ∧ s.pos ≤ s'.pos ∧ s'.pos ≤ max s.pos s.input.length := by
  intro fuel
  induction fuel with
  | zero =>
    intro s l s' cA e h
    simp only [childrenGo] at h
    injection h with h1 h
    injection h with h2 h
    subst h2
    exact ⟨rfl, le_refl _, le_max_left _ _⟩
  | succ fuel ih =>
    intro s l s' cA e h
    simp only [childrenGo] at h
    cases hcs : child s with
    | err c1 e1 =>
      simp only [hcs] at h
      injection h with h1 h
      injection h with h2 h
      subst h2
      exact ⟨rfl, le_refl _, le_max_left _ _⟩
    | ok c1 x s1 =>
      simp only [hcs] at h
      obtain ⟨h1, h2, h3⟩ := hchild s c1 x s1 hcs
      cases hrec : childrenGo child fuel s1 with
      | mk l2 rest =>
        obtain ⟨s2, cA2, e2⟩ := rest
        simp only [hrec] at h
        injection h with h4 h
        injection h with h5 h
        subst h5
        obtain ⟨h6, h7, h8⟩ := ih s1 l2 s2 cA2 e2 hrec
        refine ⟨h6.trans h1, h2.trans h7, ?_⟩
        rw [h1] at h8
        omega

theorem advances_section_content (child : P (Bytes × Section))
    (hchild : Advances child) (fuel : Nat) (hdr : SectionHeader) (enc : Encoding) :
    Advances (section_content child fuel hdr enc) := by
  intro s c v s' h
  simp only [section_content] at h
  cases hl : lookupA hdr.options (strB "content-length") with
  | some lv =>
    simp only [hl] at h
    cases hn : parseUsize lv with
    | none => simp only [hn] at h; cases h
    | some n =>
      simp only [hn] at h
      cases htk : pTake n s with
      | err c1 e1 => simp only [htk] at h; cases h
      | ok c1 bs s1 =>
        simp only [htk] at h
        obtain ⟨h1, h2, h3⟩ := advances_pTake n s c1 bs s1 htk
        cases hdec : (match enc with
               | .Binary => some (SectionContent.RawData bs)
               | .Utf8 => if utf8Valid bs then some (SectionContent.EncodedData bs) else none) with
        | none => simp only [hdec] at h; cases h
        | some content =>
          simp only [hdec] at h
          cases hb : pByte 10 s1 with
          | err c2 e2 => simp only [hb] at h; cases h
          | ok c2 b2 s2 =>
            simp only [hb] at h
            injection h with hc hv hs
            subst hc hv hs
            obtain ⟨h4, h5, h6⟩ := advances_pByte 10 s1 c2 b2 s2 hb
            refine ⟨h4.trans h1, h2.trans h5, ?_⟩
            rw [h1] at h6
            omega
  | none =>
    simp only [hl] at h
    cases hcg : childrenGo child fuel s with
    | mk l rest =>
      obtain ⟨s1, cA, e1⟩ := rest
      obtain ⟨hin, hpos, hbound⟩ := advances_childrenGo child hchild fuel s l s1 cA e1 hcg
      cases l with
      | nil => simp only [hcg] at h; cases h
      | cons x t =>
        simp only [hcg] at h
        cases h
        exact ⟨hin, hpos, hbound⟩

theorem advances_section_header : Advances section_header :=
  advances_pbind _ _ (advances_pByte 35) fun _ =>
  advances_pbind _ _ (advances_pmap _ _ (advances_pTakeWhile _)) fun _ =>
  advances_pbind _ _ (advances_pTakeWhile _) fun _ =>
  advances_pbind _ _ (advances_pByte 58) fun _ =>
  advances_pbind _ _
    (advances_pOptional _ (advances_pbind _ _ advances_pSpaces1 fun _ => advances_option_list))
    fun _ =>
  advances_pbind _ _ advances_pSpaces fun _ =>
  advances_pbind _ _ (advances_pByte 10) fun _ => advances_pPure _

theorem advances_sectionGo : ∀ fuel d pe, Advances (sectionGo fuel d pe) := by
  intro fuel
  induction fuel with
  | zero => intro d pe s c v s' h; cases h
  | succ fuel ih =>
    intro d pe s c v s' h
    simp only [sectionGo] at h
    cases hh : section_header s with
    | err c1 e1 => simp only [hh] at h; cases h
    | ok c1 hdr s1 =>
      simp only [hh] at h
      obtain ⟨h1, h2, h3⟩ := advances_section_header s c1 hdr s1 hh
      by_cases hd : hdr.depth ≠ d
      · rw [if_pos hd] at h; cases h
      · rw [if_neg hd] at h
        cases henc : (match lookupA hdr.options (strB "encoding") with
               | some v => (Encoding.from_str v).elim (Sum.inl v) Sum.inr
               | none => Sum.inr pe) with
        | inl v0 => simp only [henc] at h; cases h
        | inr enc =>
          simp only [henc] at h
          cases hct : section_content (sectionGo fuel (hdr.depth + 1) enc) fuel hdr enc s1 with
          | err c2 e2 => simp only [hct] at h; cases h
          | ok c2 content s2 =>
            simp only [hct] at h
            injection h with hc hv hs
            subst hc hv hs
            obtain ⟨h4, h5, h6⟩ :=
              advances_section_content _ (ih (hdr.depth + 1) enc) fuel hdr enc
                s1 c2 content s2 hct
            refine ⟨h4.trans h1, h2.trans h5, ?_⟩
            rw [h1] at h6
            omega

theorem advances_sectionP (d : Nat) (pe : Encoding) : Advances (sectionP d pe) := by
  intro s c v s' h
  exact advances_sectionGo _ d pe s c v s' h

/-! ### Shape lemmas for the scanners -/

/-- The first byte of `r`, if any, does not satisfy `p` (so a maximal run of
`p`-bytes placed before `r` stops exactly at `r`). -/
def headFails (p : Nat → Bool) (r : Bytes) : Prop :=
  ∀ b, r.head? = some b → p b = false

theorem headFails_nil (p : Nat → Bool) : headFails p [] := by
  intro b hb
  cases hb

theorem headFails_cons (p : Nat → Bool) (b : Nat) (r : Bytes) (h : p b = false) :
    headFails p (b :: r) := by
  intro b2 hb
  injection hb with hb
  subst hb
  exact h

theorem Stream.advance_advance (s : Stream) (a b : Nat) :
    (s.advance a).advance b = s.advance (a + b) := by
  simp [Stream.advance, Nat.add_assoc]

theorem pByte_head (b : Nat) (s : Stream) (r : Bytes) (h : s.rest = b :: r) :
    pByte b s = .ok true b (s.advance 1) := by
  simp [pByte, h]

theorem pByte_head_ne (b c0 : Nat) (s : Stream) (r : Bytes) (h : s.rest = c0 :: r)
    (hne : c0 ≠ b) : pByte b s = .err false ⟨s.pos, .expectedByte b⟩ := by
  simp [pByte, h, hne]

theorem pByte_nil (b : Nat) (s : Stream) (h : s.rest = []) :
    pByte b s = .err false ⟨s.pos, .expectedByte b⟩ := by
  simp [pByte, h]

theorem pTakeWhile_split (p : Nat → Bool) (s : Stream) (l r : Bytes)
    (h : s.rest = l ++ r) (hl : l.all p = true) (hr : headFails p r) :
    pTakeWhile p s = .ok (decide (l ≠ [])) l (s.advance l.length) := by
  simp only [pTakeWhile, h, takeWhile_all_append p l r hl hr]

theorem pTakeWhile1_split (p : Nat → Bool) (s : Stream) (l r : Bytes)
    (h : s.rest = l ++ r) (hl : l.all p = true) (hne : l ≠ []) (hr : headFails p r) :
    pTakeWhile1 p s = .ok true l (s.advance l.length) := by
  simp only [pTakeWhile1, h, takeWhile_all_append p l r hl hr, if_neg hne]

theorem rest_advance_append (s : Stream) (l r : Bytes) (h : s.rest = l ++ r) :
    (s.advance l.length).rest = r := by
  rw [Stream.rest_advance, h, List.drop_left]

/-- `option` on `key = value` followed by anything that cannot extend the value. -/
theorem option_split (s : Stream) (k v r : Bytes) (h : s.rest = k ++ 61 :: (v ++ r))
    (hk : k.all is_option_char = true) (hk0 : k ≠ [])
    (hv : v.all is_option_char = true) (hv0 : v ≠ [])
    (hr : headFails is_option_char r) :
    option s = .ok true (k, v) (s.advance (k.length + 1 + v.length)) := by
  have h1 : option_str s = .ok true k (s.advance k.length) :=
    pTakeWhile1_split _ s k (61 :: (v ++ r)) h hk hk0
      (headFails_cons _ _ _ (by decide))
  have hrest1 : (s.advance k.length).rest = 61 :: (v ++ r) :=
    rest_advance_append s k _ h
  have h2 : pByte 61 (s.advance k.length) = .ok true 61 ((s.advance k.length).advance 1) :=
    pByte_head 61 _ _ hrest1
  have hrest2 : ((s.advance k.length).advance 1).rest = v ++ r := by
    rw [Stream.rest_advance, hrest1]
    rfl
  have h3 : option_str ((s.advance k.length).advance 1)
      = .ok true v (((s.advance k.length).advance 1).advance v.length) :=
    pTakeWhile1_split _ _ v r hrest2 hv hv0 hr
  simp only [option, pbind, h1, h2, h3, pPure, Bool.or_false, Bool.or_true, Bool.true_or]
  simp [Stream.advance_advance]

/-- `option` fails without consuming when the stream does not start with an
option character. -/
theorem option_err_head (s : Stream) (hr : headFails is_option_char s.rest) :
    option s = .err false ⟨s.pos, .expectedToken⟩ := by
  have h1 : option_str s = .err false ⟨s.pos, .expectedToken⟩ := by
    simp only [option_str, pTakeWhile1]
    cases hrr : s.rest with
    | nil => simp
    | cons b t =>
      have hb : is_option_char b = false := hr b (by rw [hrr]; rfl)
      simp [List.takeWhile, hb]
  simp only [option, pbind, h1]

/-! ### Unfolding the encoding resolution inside `sectionGo` -/

theorem resolve_sum_some (opts : AList Bytes) (pe enc : Encoding)
    (h : resolveEnc opts pe = some enc) :
    (match lookupA opts (strB "encoding") with
     | some v => (Encoding.from_str v).elim (Sum.inl v) Sum.inr
     | none => Sum.inr pe) = (Sum.inr enc : Bytes ⊕ Encoding) := by
  unfold resolveEnc at h
  cases hl : lookupA opts (strB "encoding") with
  | none =>
    simp only [hl] at h
    injection h with h
    subst h
    rfl
  | some v =>
    simp only [hl] at h
    show (Encoding.from_str v).elim (Sum.inl v) Sum.inr = Sum.inr enc
    rw [h]
    rfl

theorem resolve_sum_none (opts : AList Bytes) (pe : Encoding)
    (h : resolveEnc opts pe = none) :
    ∃ v, lookupA opts (strB "encoding") = some v ∧ Encoding.from_str v = none ∧
      (match lookupA opts (strB "encoding") with
       | some v => (Encoding.from_str v).elim (Sum.inl v) Sum.inr
       | none => Sum.inr pe) = (Sum.inl v : Bytes ⊕ Encoding) := by
  unfold resolveEnc at h
  cases hl : lookupA opts (strB "encoding") with
  | none => simp only [hl] at h; cases h
  | some v =>
    simp only [hl] at h
    refine ⟨v, rfl, h, ?_⟩
    show (Encoding.from_str v).elim (Sum.inl v) Sum.inr = Sum.inl v
    rw [h]
    rfl

/-! ### Claim theorems -/

/-- C1: parsing the input `#diffx: version=1.0,encoding=utf-8,content-length=0\n\n`
with the section parser at expected depth 0 and inherited encoding Binary succeeds
and returns the pair `("diffx", Section)` where the Section has encoding Utf8,
options mapping version -> 1.0, encoding -> utf-8, content-length -> 0, and content
`EncodedData ""`, with no input left over (the final offset is the buffer length). -/
theorem c1_parse_example :
    sectionP 0 .Binary ⟨strB "#diffx: version=1.0,encoding=utf-8,content-length=0\n\n", 0⟩
      = .ok true (strB "diffx",
          Section.mk .Utf8
            [(strB "version", strB "1.0"), (strB "encoding", strB "utf-8"),
             (strB "content-length", strB "0")]
            (.EncodedData []))
          ⟨strB "#diffx: version=1.0,encoding=utf-8,content-length=0\n\n", 53⟩
    ∧ (strB "#diffx: version=1.0,encoding=utf-8,content-length=0\n\n").length = 53 :=
  ⟨rfl, rfl⟩

/-- C4: whenever the section parser successfully parses a section header whose
depth differs from the expected depth `d`, it fails with a DepthMismatch error at
the start of the section, and the failure is reported as consumed (committed,
non-backtrackable). -/
theorem c4_depth_mismatch_consumed (d : Nat) (pe : Encoding) (s : Stream)
    (c : Bool) (hdr : SectionHeader) (s1 : Stream)
    (hh : section_header s = .ok c hdr s1) (hd : hdr.depth ≠ d) :
    sectionP d pe s = .err true ⟨s.pos, .depthMismatch d⟩ := by
  simp only [sectionP, sectionGo, hh]
  rw [if_pos hd]

/-- Witness for C4: a header of depth 2 where depth 1 was expected fails with a
consumed DepthMismatch. -/
theorem c4_depth_mismatch_consumed_witness :
    sectionP 1 .Binary ⟨strB "#..x:\n", 0⟩ = .err true ⟨0, .depthMismatch 1⟩ :=
  c4_depth_mismatch_consumed 1 .Binary ⟨strB "#..x:\n", 0⟩ true ⟨2, strB "x", []⟩
    ⟨strB "#..x:\n", 6⟩ rfl (by decide)

/-- C5 counterexample: the claim says a child attempt that fails after consuming
input propagates as a real error.  On this input the second child attempt (at
offset 27, the truncated header `#.`) fails with consumed = `true`, yet the outer
parse at depth 0 succeeds, ending exactly at offset 27 — the committing failure
was swallowed by the `try` wrapper and merely ended the child loop. -/
theorem c5_counterexample :
    sectionP 1 .Binary ⟨strB "#r:\n#.a: content-length=0\n\n#.", 27⟩
      = .err true ⟨29, .expectedByte 58⟩
    ∧ sectionP 0 .Binary ⟨strB "#r:\n#.a: content-length=0\n\n#.", 0⟩
        = .ok true (strB "r",
            Section.mk .Binary []
              (.ChildSections [(strB "a",
                 Section.mk .Binary [(strB "content-length", strB "0")] (.RawData []))]))
            ⟨strB "#r:\n#.a: content-length=0\n\n#.", 27⟩ :=
  ⟨rfl, rfl⟩

/-- C6 counterexample: on `#diffx: content-length=abc\n` the parser fails with
InvalidContentLength at byte offset 27 — the end of the header — while the
option value `abc` sits at byte offset 23 (as the second conjunct shows); the
error does not carry the offset of the option's value as the claim states. -/
theorem c6_counterexample :
    sectionP 0 .Binary ⟨strB "#diffx: content-length=abc\n", 0⟩
      = .err true ⟨27, .invalidContentLength (strB "abc")⟩
    ∧ ((strB "#diffx: content-length=abc\n").drop 23).take 3 = strB "abc"
    ∧ (27 : Nat) ≠ 23 :=
  ⟨rfl, rfl, by decide⟩


/-- C6 amended: when a section's content-length option value does not parse as a
non-negative integer, the section parser fails with an InvalidContentLength error
that is consumed and carries the byte offset of the START OF THE SECTION'S
CONTENT — the position immediately after the header's terminating newline — not
the offset of the option's value. -/
theorem c6_invalid_content_length_offset (d : Nat) (pe enc : Encoding) (s : Stream)
    (c : Bool) (hdr : SectionHeader) (s1 : Stream) (v : Bytes)
    (hh : section_header s = .ok c hdr s1) (hd : hdr.depth = d)
    (henc : resolveEnc hdr.options pe = some enc)
    (hcl : lookupA hdr.options (strB "content-length") = some v)
    (hn : parseUsize v = none) :
    sectionP d pe s = .err true ⟨s1.pos, .invalidContentLength v⟩ := by
  simp only [sectionP, sectionGo, hh]
  rw [if_neg (by simp [hd])]
  rw [resolve_sum_some hdr.options pe enc henc]
  simp only [section_content, hcl, hn]

/-- Witness for the amended C6, on the counterexample input: the error offset is
27, the first byte after the header. -/
theorem c6_invalid_content_length_offset_witness :
    sectionP 0 .Binary ⟨strB "#diffx: content-length=abc\n", 0⟩
      = .err true ⟨27, .invalidContentLength (strB "abc")⟩ :=
  c6_invalid_content_length_offset 0 .Binary .Binary
    ⟨strB "#diffx: content-length=abc\n", 0⟩ true
    ⟨0, strB "diffx", [(strB "content-length", strB "abc")]⟩
    ⟨strB "#diffx: content-length=abc\n", 27⟩ (strB "abc")
    rfl rfl rfl rfl rfl

/-- C3: for every section whose header options contain content-length parsing as
the non-negative integer `n`: on success the parser consumed exactly the `n`
payload bytes followed by exactly one newline byte (so at least `n + 1` bytes
were available and the byte after the payload is a newline); with resolved
encoding Utf8 the payload is valid UTF-8 and the content is `EncodedData` of it,
and with Binary the content is `RawData` of exactly those bytes, unvalidated.
An invalid UTF-8 payload fails with the Utf8DecodeError kind. -/
theorem c3_content_length_payload (child : P (Bytes × Section)) (fuel : Nat)
    (hdr : SectionHeader) (enc : Encoding) (s : Stream) (v : Bytes) (n : Nat)
    (hcl : lookupA hdr.options (strB "content-length") = some v)
    (hn : parseUsize v = some n) :
    (∀ c content s', section_content child fuel hdr enc s = .ok c content s' →
        n + 1 ≤ s.rest.length
        ∧ s' = s.advance (n + 1)
        ∧ (s.rest.drop n).head? = some 10
        ∧ (enc = .Utf8 → utf8Valid (s.rest.take n) = true
            ∧ content = .EncodedData (s.rest.take n))
        ∧ (enc = .Binary → content = .RawData (s.rest.take n)))
    ∧ (enc = .Utf8 → n ≤ s.rest.length → utf8Valid (s.rest.take n) = false →
        section_content child fuel hdr enc s
          = .err (decide (0 < n)) ⟨s.pos + n, .utf8Error⟩) := by
  constructor
  · intro c content s' h
    simp only [section_content, hcl, hn, pTake] at h
    by_cases hle : n ≤ s.rest.length
    · rw [if_pos hle] at h
      have hra : (s.advance n).rest = s.rest.drop n := Stream.rest_advance s n
      cases henc2 : enc with
      | Binary =>
        subst henc2
        simp only [] at h
        cases hb : pByte 10 (s.advance n) with
        | err c2 e2 => simp only [hb] at h; cases h
        | ok c2 b2 s2 =>
          simp only [hb] at h
          injection h with hc hv hs
          subst hc hv hs
          simp only [pByte] at hb
          cases hdr2 : (s.advance n).rest with
          | nil => simp only [hdr2] at hb; cases hb
          | cons c0 t =>
            simp only [hdr2] at hb
            by_cases hc0 : c0 = 10
            · subst hc0
              rw [if_pos rfl] at hb
              injection hb with hbc hbv hbs
              have hdrop : List.drop n s.rest = 10 :: t := by
                rw [← hra, hdr2]
              have hlen : n + 1 ≤ s.rest.length := by
                have h3 : (List.drop n s.rest).length = s.rest.length - n := by simp
                rw [hdrop] at h3
                simp at h3
                omega
              refine ⟨hlen, ?_, ?_, ?_, ?_⟩
              · rw [← hbs, Stream.advance_advance]
              · rw [hdrop]
                rfl
              · intro hcontra
                cases hcontra
              · intro _
                rfl
            · rw [if_neg hc0] at hb
              cases hb
      | Utf8 =>
        subst henc2
        by_cases hval : utf8Valid (s.rest.take n) = true
        · simp only [hval, if_pos] at h
          cases hb : pByte 10 (s.advance n) with
          | err c2 e2 => simp only [hb] at h; cases h
          | ok c2 b2 s2 =>
            simp only [hb] at h
            injection h with hc hv hs
            subst hc hv hs
            simp only [pByte] at hb
            cases hdr2 : (s.advance n).rest with
            | nil => simp only [hdr2] at hb; cases hb
            | cons c0 t =>
              simp only [hdr2] at hb
              by_cases hc0 : c0 = 10
              · subst hc0
                rw [if_pos rfl] at hb
                injection hb with hbc hbv hbs
                have hdrop : List.drop n s.rest = 10 :: t := by
                  rw [← hra, hdr2]
                have hlen : n + 1 ≤ s.rest.length := by
                  have h3 : (List.drop n s.rest).length = s.rest.length - n := by simp
                  rw [hdrop] at h3
                  simp at h3
                  omega
                refine ⟨hlen, ?_, ?_, ?_, ?_⟩
                · rw [← hbs, Stream.advance_advance]
                · rw [hdrop]
                  rfl
                · intro _
                  exact ⟨hval, rfl⟩
                · intro hcontra
                  cases hcontra
              · rw [if_neg hc0] at hb
                cases hb
        · rw [Bool.not_eq_true] at hval
          simp only [hval] at h
          cases h
    · rw [if_neg hle] at h
      cases h
  · intro henc2 hle hval
    subst henc2
    simp only [section_content, hcl, hn, pTake, if_pos hle, hval]
    rfl


/-- Witness for C3: a 5-byte payload of `0xFF` bytes declared utf-8 fails with
Utf8DecodeError at the offset right after the payload. -/
theorem c3_content_length_payload_witness :
    section_content (pPure ((strB "x", Section.mk .Binary [] (.RawData [])) : Bytes × Section))
        1 ⟨0, strB "x", [(strB "content-length", strB "5")]⟩ .Utf8
        ⟨[255, 255, 255, 255, 255, 10], 0⟩
      = .err true ⟨5, .utf8Error⟩ :=
  (c3_content_length_payload _ 1 ⟨0, strB "x", [(strB "content-length", strB "5")]⟩
      .Utf8 ⟨[255, 255, 255, 255, 255, 10], 0⟩ (strB "5") 5 rfl rfl).2 rfl
    (by decide) (by decide)

/-- Converse direction of `resolve_sum_some`: if the encoding dispatch inside
`sectionGo` produced a resolved encoding, `resolveEnc` agrees. -/
theorem resolve_sum_inv (opts : AList Bytes) (pe enc : Encoding)
    (h : (match lookupA opts (strB "encoding") with
          | some v => (Encoding.from_str v).elim (Sum.inl v) Sum.inr
          | none => Sum.inr pe) = (Sum.inr enc : Bytes ⊕ Encoding)) :
    resolveEnc opts pe = some enc := by
  unfold resolveEnc
  cases hl : lookupA opts (strB "encoding") with
  | none =>
    simp only [hl] at h
    injection h with h
    rw [h]
  | some v =>
    simp only [hl] at h
    cases hf : Encoding.from_str v with
    | none => rw [hf] at h; cases h
    | some e2 =>
      rw [hf] at h
      injection h with h
      show Encoding.from_str v = some enc
      rw [hf, h]

/-- Every child collected by the loop came from a successful run of the child
parser. -/
theorem childrenGo_mem (child : P (Bytes × Section)) :
    ∀ fuel s l s' cA e, childrenGo child fuel s = (l, s', cA, e) →
      ∀ x, x ∈ l → ∃ s0 c0 s0', child s0 = .ok c0 x s0' := by
  intro fuel
  induction fuel with
  | zero =>
    intro s l s' cA e h x hx
    simp only [childrenGo] at h
    injection h with h1 h
    subst h1
    cases hx
  | succ fuel ih =>
    intro s l s' cA e h x hx
    simp only [childrenGo] at h
    cases hcs : child s with
    | err c1 e1 =>
      simp only [hcs] at h
      injection h with h1 h
      subst h1
      cases hx
    | ok c1 y s1 =>
      simp only [hcs] at h
      cases hrec : childrenGo child fuel s1 with
      | mk l2 rest =>
        obtain ⟨s2, cA2, e2⟩ := rest
        simp only [hrec] at h
        injection h with h1 h
        subst h1
        rcases List.mem_cons.1 hx with hx1 | hx1
        · subst hx1
          exact ⟨s, c1, s1, hcs⟩
        · exact ih s1 l2 s2 cA2 e2 hrec x hx1

/-- If a successful `section_content` produced child sections, each of them came
from a successful run of the child parser. -/
theorem section_content_children_inv (child : P (Bytes × Section)) (fuel : Nat)
    (hdr : SectionHeader) (enc : Encoding) (s : Stream) (c : Bool)
    (content : SectionContent) (s' : Stream)
    (h : section_content child fuel hdr enc s = .ok c content s')
    (m : List (Bytes × Section)) (hm : content = .ChildSections m) :
    ∀ x, x ∈ m → ∃ s0 c0 s0', child s0 = .ok c0 x s0' := by
  simp only [section_content] at h
  cases hl : lookupA hdr.options (strB "content-length") with
  | some v =>
    simp only [hl] at h
    cases hn : parseUsize v with
    | none => simp only [hn] at h; cases h
    | some n =>
      simp only [hn] at h
      cases htk : pTake n s with
      | err c1 e1 => simp only [htk] at h; cases h
      | ok c1 bs s1 =>
        simp only [htk] at h
        cases hdec : (match enc with
               | .Binary => some (SectionContent.RawData bs)
               | .Utf8 => if utf8Valid bs then some (SectionContent.EncodedData bs) else none) with
        | none => simp only [hdec] at h; cases h
        | some content0 =>
          simp only [hdec] at h
          cases hb : pByte 10 s1 with
          | err c2 e2 => simp only [hb] at h; cases h
          | ok c2 b2 s2 =>
            simp only [hb] at h
            injection h with hc hv hs
            subst hv
            cases henc2 : enc with
            | Binary =>
              subst henc2
              injection hdec with hdec
              rw [← hdec] at hm
              cases hm
            | Utf8 =>
              subst henc2
              by_cases hval : utf8Valid bs = true
              · rw [hval] at hdec
                rw [if_pos rfl] at hdec
                injection hdec with hdec
                rw [← hdec] at hm
                cases hm
              · rw [Bool.not_eq_true] at hval
                rw [hval] at hdec
                rw [if_neg (by simp)] at hdec
                cases hdec
  | none =>
    simp only [hl] at h
    cases hcg : childrenGo child fuel s with
    | mk l rest =>
      obtain ⟨s1, cA, e1⟩ := rest
      cases l with
      | nil => simp only [hcg] at h; cases h
      | cons y t =>
        simp only [hcg] at h
        injection h with hc hv hs
        subst hv
        injection hm with hm
        subst hm
        intro x hx
        exact childrenGo_mem child fuel s (y :: t) s1 cA e1 hcg x (mem_collectA _ x hx)

/-- Inversion of a successful section parse: the section's encoding is the
resolution of its own options against the inherited parent encoding, its options
are the header's options verbatim, and its title is the header's title. -/
theorem sectionGo_ok_inv : ∀ fuel d pe s c t sec s',
    sectionGo fuel d pe s = .ok c (t, sec) s' →
    resolveEnc sec.options pe = some sec.encoding := by
  intro fuel
  cases fuel with
  | zero => intro d pe s c t sec s' h; cases h
  | succ fuel =>
    intro d pe s c t sec s' h
    simp only [sectionGo] at h
    cases hh : section_header s with
    | err c1 e1 => simp only [hh] at h; cases h
    | ok c1 hdr s1 =>
      simp only [hh] at h
      by_cases hd : hdr.depth ≠ d
      · rw [if_pos hd] at h; cases h
      · rw [if_neg hd] at h
        cases henc : (match lookupA hdr.options (strB "encoding") with
               | some v => (Encoding.from_str v).elim (Sum.inl v) Sum.inr
               | none => Sum.inr pe) with
        | inl v0 => simp only [henc] at h; cases h
        | inr enc =>
          simp only [henc] at h
          cases hct : section_content (sectionGo fuel (hdr.depth + 1) enc) fuel hdr enc s1 with
          | err c2 e2 => simp only [hct] at h; cases h
          | ok c2 content s2 =>
            simp only [hct] at h
            injection h with hc hv hs
            injection hv with hv1 hv2
            subst hv2
            simpa [Section.options, Section.encoding] using resolve_sum_inv hdr.options pe enc henc

/-- Inversion of a successful section parse, child-provenance part: every child
section in the result was produced by the section parser at the next depth with
the parent encoding equal to THIS section's resolved encoding. -/
theorem sectionGo_ok_children_inv : ∀ fuel d pe s c t sec s' m,
    sectionGo fuel d pe s = .ok c (t, sec) s' →
    sec.content = .ChildSections m →
    ∀ x, x ∈ m → ∃ fuel2 d2 s0 c0 s0',
      sectionGo fuel2 d2 sec.encoding s0 = .ok c0 x s0' := by
  intro fuel
  cases fuel with
  | zero => intro d pe s c t sec s' m h; cases h
  | succ fuel =>
    intro d pe s c t sec s' m h hm
    simp only [sectionGo] at h
    cases hh : section_header s with
    | err c1 e1 => simp only [hh] at h; cases h
    | ok c1 hdr s1 =>
      simp only [hh] at h
      by_cases hd : hdr.depth ≠ d
      · rw [if_pos hd] at h; cases h
      · rw [if_neg hd] at h
        cases henc : (match lookupA hdr.options (strB "encoding") with
               | some v => (Encoding.from_str v).elim (Sum.inl v) Sum.inr
               | none => Sum.inr pe) with
        | inl v0 => simp only [henc] at h; cases h
        | inr enc =>
          simp only [henc] at h
          cases hct : section_content (sectionGo fuel (hdr.depth + 1) enc) fuel hdr enc s1 with
          | err c2 e2 => simp only [hct] at h; cases h
          | ok c2 content s2 =>
            simp only [hct] at h
            injection h with hc hv hs
            injection hv with hv1 hv2
            subst hv2
            intro x hx
            obtain ⟨s0, c0, s0', hchild⟩ :=
              section_content_children_inv _ fuel hdr enc s1 c2 content s2 hct m
                (by simpa [Section.content] using hm) x hx
            exact ⟨fuel, hdr.depth + 1, s0, c0, s0', by
              simpa [Section.encoding] using hchild⟩


/-- C2: for every section parsed with inherited encoding `pe`: an `encoding`
option of exactly `utf-8` resolves to Utf8 and exactly `binary` to Binary (the
first conjunct pins `Encoding.from_str` to exactly these two strings), any other
value makes the parse fail with a consumed UnknownEncoding error, an absent key
resolves to `pe` (third conjunct, via `resolveEnc`), and every child section of a
successful parse was itself resolved against THIS section's resolved encoding as
its inherited encoding. -/
theorem c2_encoding_resolution (d : Nat) (pe : Encoding) (s : Stream) (c : Bool)
    (hdr : SectionHeader) (s1 : Stream)
    (hh : section_header s = .ok c hdr s1) (hd : hdr.depth = d) :
    (Encoding.from_str (strB "utf-8") = some .Utf8
      ∧ Encoding.from_str (strB "binary") = some .Binary
      ∧ ∀ v, v ≠ strB "utf-8" → v ≠ strB "binary" → Encoding.from_str v = none)
    ∧ (∀ v, lookupA hdr.options (strB "encoding") = some v → Encoding.from_str v = none →
        sectionP d pe s = .err true ⟨s.pos, .unknownEncoding v⟩)
    ∧ (∀ c2 t sec s2, sectionP d pe s = .ok c2 (t, sec) s2 →
        sec.options = hdr.options
        ∧ resolveEnc hdr.options pe = some sec.encoding
        ∧ ∀ m, sec.content = .ChildSections m →
            ∀ x, x ∈ m → resolveEnc x.2.options sec.encoding = some x.2.encoding) := by
  refine ⟨⟨rfl, rfl, ?_⟩, ?_, ?_⟩
  · intro v h1 h2
    unfold Encoding.from_str
    rw [if_neg h1, if_neg h2]
  · intro v hl hf
    have hre : resolveEnc hdr.options pe = none := by
      unfold resolveEnc
      rw [hl]
      exact hf
    obtain ⟨v2, hl2, hf2, hsum⟩ := resolve_sum_none hdr.options pe hre
    rw [hl2] at hl
    injection hl with hl
    subst hl
    simp only [sectionP, sectionGo, hh]
    rw [if_neg (by simp [hd])]
    rw [hsum]
  · intro c2 t sec s2 hok
    have hres : resolveEnc sec.options pe = some sec.encoding :=
      sectionGo_ok_inv _ d pe s c2 t sec s2 hok
    have hopts : sec.options = hdr.options := by
      simp only [sectionP, sectionGo, hh] at hok
      rw [if_neg (by simp [hd])] at hok
      cases henc : (match lookupA hdr.options (strB "encoding") with
             | some v => (Encoding.from_str v).elim (Sum.inl v) Sum.inr
             | none => Sum.inr pe) with
      | inl v0 => simp only [henc] at hok; cases hok
      | inr enc =>
        simp only [henc] at hok
        cases hct : section_content (sectionGo s.input.length (hdr.depth + 1) enc)
            s.input.length hdr enc s1 with
        | err c3 e3 => simp only [hct] at hok; cases hok
        | ok c3 content s3 =>
          simp only [hct] at hok
          injection hok with hc hv hs
          injection hv with hv1 hv2
          subst hv2
          rfl
    refine ⟨hopts, by rw [← hopts]; exact hres, ?_⟩
    intro m hm x hx
    obtain ⟨fuel2, d2, s0, c0, s0', hchild⟩ :=
      sectionGo_ok_children_inv _ d pe s c2 t sec s2 m hok hm x hx
    have := sectionGo_ok_inv fuel2 d2 sec.encoding s0 c0 x.1 x.2 s0'
      (by rw [← hchild])
    exact this

/-- Witness for C2: an unknown encoding value `foo` makes the parse fail with a
consumed UnknownEncoding error anchored at the section start. -/
theorem c2_encoding_resolution_witness :
    sectionP 0 .Binary ⟨strB "#x: encoding=foo\n", 0⟩
      = .err true ⟨0, .unknownEncoding (strB "foo")⟩ :=
  (c2_encoding_resolution 0 .Binary ⟨strB "#x: encoding=foo\n", 0⟩ true
      ⟨0, strB "x", [(strB "encoding", strB "foo")]⟩ ⟨strB "#x: encoding=foo\n", 17⟩
      rfl rfl).2.1 (strB "foo") rfl rfl

/-- C5 amended: in the child-collection loop (which wraps each attempt in
combine's `try`), an attempt that fails WITHOUT consuming input ends the loop
normally — and so does an attempt that fails AFTER consuming input: the committed
failure does not propagate; with at least one child already parsed the section's
content parse simply succeeds with the children collected so far, ending at the
position before the failed attempt. -/
theorem c5_child_loop_failures_end_loop :
    (∀ (child : P (Bytes × Section)) (n : Nat) (s : Stream) (cc : Bool) (e : PError),
        child s = .err cc e →
        childrenGo child (n + 1) s = ([], s, false, e))
    ∧ (∀ (child : P (Bytes × Section)) (n : Nat) (hdr : SectionHeader) (enc : Encoding)
        (s : Stream) (c : Bool) (t : Bytes) (sec : Section) (s' : Stream) (e : PError),
        lookupA hdr.options (strB "content-length") = none →
        child s = .ok c (t, sec) s' →
        child s' = .err true e →
        section_content child (n + 2) hdr enc s
          = .ok c (.ChildSections [(t, sec)]) s') := by
  constructor
  · intro child n s cc e h
    simp only [childrenGo, h]
  · intro child n hdr enc s c t sec s' e hcl hok herr
    simp only [section_content, hcl, childrenGo, hok, herr]
    simp [collectA, insertA]

/-- Witness for the amended C5, on the counterexample input: the first child of
the root parses, the second attempt fails after consuming the bytes `#.`, and the
content parse nevertheless succeeds with the one collected child. -/
theorem c5_child_loop_failures_end_loop_witness :
    section_content (sectionGo 28 1 .Binary) 28 ⟨0, strB "r", []⟩ .Binary
        ⟨strB "#r:\n#.a: content-length=0\n\n#.", 4⟩
      = .ok true
          (.ChildSections [(strB "a",
             Section.mk .Binary [(strB "content-length", strB "0")] (.RawData []))])
          ⟨strB "#r:\n#.a: content-length=0\n\n#.", 27⟩ :=
  c5_child_loop_failures_end_loop.2 (sectionGo 28 1 .Binary) 26 ⟨0, strB "r", []⟩
    .Binary ⟨strB "#r:\n#.a: content-length=0\n\n#.", 4⟩ true (strB "a")
    (Section.mk .Binary [(strB "content-length", strB "0")] (.RawData []))
    ⟨strB "#r:\n#.a: content-length=0\n\n#.", 27⟩ ⟨29, .expectedByte 58⟩
    rfl rfl rfl

/-- C7: for a section whose header has no content-length option: if no child
section at the next depth can be parsed from the following input (the child
parser fails there at every fuel), the section parser fails — and every
successfully parsed section of this shape has at least one child in its
ChildSections content. -/
theorem c7_missing_content (d : Nat) (pe enc : Encoding) (s : Stream) (c : Bool)
    (hdr : SectionHeader) (s1 : Stream)
    (hh : section_header s = .ok c hdr s1) (hd : hdr.depth = d)
    (henc : resolveEnc hdr.options pe = some enc)
    (hcl : lookupA hdr.options (strB "content-length") = none) :
    ((∀ f, ∃ cc e, sectionGo f (hdr.depth + 1) enc s1 = .err cc e) →
       ∃ e, sectionP d pe s = .err false e)
    ∧ (∀ c2 t sec s2, sectionP d pe s = .ok c2 (t, sec) s2 →
        ∃ m, sec.content = .ChildSections m ∧ m ≠ []) := by
  constructor
  · intro hf
    simp only [sectionP, sectionGo, hh]
    rw [if_neg (by simp [hd])]
    rw [resolve_sum_some hdr.options pe enc henc]
    simp only [section_content, hcl]
    cases hlen : s.input.length with
    | zero => exact ⟨⟨s1.pos, .fuelOut⟩, by simp [childrenGo]⟩
    | succ k =>
      obtain ⟨_cc, e, he⟩ := hf (k + 1)
      exact ⟨e, by simp [childrenGo, he]⟩
  · intro c2 t sec s2 hok
    simp only [sectionP, sectionGo, hh] at hok
    rw [if_neg (by simp [hd])] at hok
    rw [resolve_sum_some hdr.options pe enc henc] at hok
    simp only [section_content, hcl] at hok
    cases hcg : childrenGo (sectionGo s.input.length (hdr.depth + 1) enc)
        s.input.length s1 with
    | mk l rest2 =>
      obtain ⟨s3, cA, e3⟩ := rest2
      cases l with
      | nil => simp only [hcg] at hok; cases hok
      | cons y tl =>
        simp only [hcg] at hok
        injection hok with hc hv hs
        injection hv with hv1 hv2
        subst hv2
        exact ⟨collectA (y :: tl), rfl, collectA_ne_nil _ (by simp)⟩

/-- Witness for C7: a section with no content-length whose following input (a
lone newline) cannot start a child section fails. -/
theorem c7_missing_content_witness :
    ∃ e, sectionP 0 .Binary ⟨strB "#diffx: version=1.0\n\n", 0⟩ = .err false e :=
  (c7_missing_content 0 .Binary .Binary ⟨strB "#diffx: version=1.0\n\n", 0⟩ true
      ⟨0, strB "diffx", [(strB "version", strB "1.0")]⟩
      ⟨strB "#diffx: version=1.0\n\n", 20⟩ rfl rfl rfl rfl).1
    (fun f => by
      cases f with
      | zero => exact ⟨false, ⟨20, .fuelOut⟩, rfl⟩
      | succ k => exact ⟨false, ⟨20, .expectedByte 35⟩, rfl⟩)

/-- C10: a section that declares a content-length larger than the bytes remaining
after its header fails to parse (it never succeeds with a shorter payload), and —
the never-reads-past-the-end guarantee — every successful parse that starts
inside the buffer ends at an offset no larger than the buffer length, with the
buffer untouched. -/
theorem c10_content_length_overrun (d : Nat) (pe : Encoding) (s : Stream)
    (c : Bool) (hdr : SectionHeader) (s1 : Stream) (v : Bytes) (n : Nat)
    (hh : section_header s = .ok c hdr s1) (hd : hdr.depth = d)
    (hcl : lookupA hdr.options (strB "content-length") = some v)
    (hn : parseUsize v = some n)
    (hlen : s1.rest.length < n) :
    (∃ cc e, sectionP d pe s = .err cc e)
    ∧ (∀ (s0 : Stream) (c0 : Bool) (x : Bytes × Section) (s0' : Stream)
        (d0 : Nat) (pe0 : Encoding), s0.pos ≤ s0.input.length →
        sectionP d0 pe0 s0 = .ok c0 x s0' →
        s0'.input = s0.input ∧ s0'.pos ≤ s0.input.length) := by
  constructor
  · simp only [sectionP, sectionGo, hh]
    rw [if_neg (by simp [hd])]
    cases hre : resolveEnc hdr.options pe with
    | none =>
      obtain ⟨v2, hl2, hf2, hsum⟩ := resolve_sum_none hdr.options pe hre
      rw [hsum]
      exact ⟨true, ⟨s.pos, .unknownEncoding v2⟩, rfl⟩
    | some enc =>
      rw [resolve_sum_some hdr.options pe enc hre]
      simp only [section_content, hcl, hn, pTake, if_neg (by omega : ¬ n ≤ s1.rest.length)]
      exact ⟨false, ⟨s1.pos, .unexpectedEof⟩, rfl⟩
  · intro s0 c0 x s0' d0 pe0 hp hok
    obtain ⟨h1, h2, h3⟩ := advances_sectionP d0 pe0 s0 c0 x s0' hok
    exact ⟨h1, by omega⟩

/-- Witness for C10: a declared content-length of 5 with only 2 bytes after the
header fails with an end-of-input error. -/
theorem c10_content_length_overrun_witness :
    ∃ cc e, sectionP 0 .Binary ⟨strB "#x: content-length=5\nab", 0⟩ = .err cc e :=
  (c10_content_length_overrun 0 .Binary ⟨strB "#x: content-length=5\nab", 0⟩ true
      ⟨0, strB "x", [(strB "content-length", strB "5")]⟩
      ⟨strB "#x: content-length=5\nab", 21⟩ (strB "5") 5
      rfl rfl rfl rfl (by decide)).1


theorem header_char_not_dot (x : Nat) (h : is_section_header_char x = true) :
    (x == 46) = false := by
  by_cases hx : x = 46
  · subst hx
    simp [is_section_header_char] at h
  · simp [hx]

theorem all_replicate_dot (d : Nat) :
    (List.replicate d 46).all (fun c => c == 46) = true := by
  induction d with
  | zero => rfl
  | succ k ih => simp [List.replicate, ih]

/-- C8: for every depth `d` and every title over the alphabet `[A-Za-z-]`
(possibly empty), the header parser on `#` + d dots + title + `:` + newline
succeeds with depth `d`, the exact title and empty options, consuming the whole
header; and with the newline absent (input ending at the colon) it fails. -/
theorem c8_header_roundtrip (d : Nat) (title r : Bytes)
    (ht : title.all is_section_header_char = true) :
    section_header ⟨35 :: (List.replicate d 46 ++ title ++ 58 :: 10 :: r), 0⟩
      = .ok true ⟨d, title, []⟩
          ⟨35 :: (List.replicate d 46 ++ title ++ 58 :: 10 :: r), d + title.length + 3⟩
    ∧ section_header ⟨35 :: (List.replicate d 46 ++ title ++ [58]), 0⟩
      = .err true ⟨d + title.length + 2, .expectedByte 10⟩ := by
  have hdots_stop : ∀ (tl : Bytes) (h0 : headFails (fun c => c == 46) tl),
      headFails (fun c => c == 46) (title ++ tl) := by
    intro tl h0
    cases htt : title with
    | nil =>
      intro b hb
      simp only [List.nil_append] at hb
      exact h0 b hb
    | cons t0 tt =>
      intro b hb
      injection hb with hb
      subst hb
      have ht0 : is_section_header_char t0 = true := by
        rw [htt] at ht
        simp only [List.all_cons, Bool.and_eq_true] at ht
        exact ht.1
      exact header_char_not_dot t0 ht0
  constructor
  · -- the successful parse
    set inp : Bytes := 35 :: (List.replicate d 46 ++ title ++ 58 :: 10 :: r) with hinp
    set s0 : Stream := ⟨inp, 0⟩ with hs0
    have hrest0 : s0.rest = 35 :: (List.replicate d 46 ++ title ++ 58 :: 10 :: r) := rfl
    have h1 : pByte 35 s0 = .ok true 35 (s0.advance 1) := pByte_head 35 s0 _ hrest0
    have hrest1 : (s0.advance 1).rest = List.replicate d 46 ++ (title ++ 58 :: 10 :: r) := by
      rw [Stream.rest_advance, hrest0]
      simp
    have h2 : pTakeWhile (fun c => c == 46) (s0.advance 1)
        = .ok (decide (List.replicate d 46 ≠ [])) (List.replicate d 46)
            ((s0.advance 1).advance (List.replicate d 46).length) :=
      pTakeWhile_split _ _ _ _ hrest1 (all_replicate_dot d)
        (hdots_stop (58 :: 10 :: r) (headFails_cons (fun c => c == 46) 58 _ (by decide)))
    have hrest2 : ((s0.advance 1).advance (List.replicate d 46).length).rest
        = title ++ 58 :: 10 :: r :=
      rest_advance_append _ _ _ hrest1
    have h3 : pTakeWhile is_section_header_char
          ((s0.advance 1).advance (List.replicate d 46).length)
        = .ok (decide (title ≠ [])) title
            (((s0.advance 1).advance (List.replicate d 46).length).advance title.length) :=
      pTakeWhile_split _ _ _ _ hrest2 ht (headFails_cons _ _ _ (by decide))
    set s3 : Stream := ((s0.advance 1).advance (List.replicate d 46).length).advance title.length
      with hs3
    have hrest3 : s3.rest = 58 :: 10 :: r := rest_advance_append _ _ _ hrest2
    have h4 : pByte 58 s3 = .ok true 58 (s3.advance 1) := pByte_head 58 s3 _ hrest3
    have hrest4 : (s3.advance 1).rest = 10 :: r := by
      rw [Stream.rest_advance, hrest3]
      rfl
    have h5 : pSpaces1 (s3.advance 1) = .err false ⟨(s3.advance 1).pos, .expectedByte 32⟩ := by
      simp [pSpaces1, hrest4, List.takeWhile]
    have h6 : pSpaces (s3.advance 1) = .ok false () ((s3.advance 1).advance 0) := by
      simp [pSpaces, hrest4, List.takeWhile]
    have hrest5 : ((s3.advance 1).advance 0).rest = 10 :: r := by
      rw [Stream.rest_advance, hrest4]
      rfl
    have h7 : pByte 10 ((s3.advance 1).advance 0)
        = .ok true 10 (((s3.advance 1).advance 0).advance 1) :=
      pByte_head 10 _ _ hrest5
    simp only [section_header, pbind, pmap, pOptional, h1, h2, h3, h4, h5, h6, h7, pPure,
      Bool.or_false, Bool.or_true, Bool.true_or, Option.getD]
    simp only [hs3, hs0, Stream.advance_advance, Stream.advance]
    simp [List.length_replicate]
    omega
  · -- missing newline
    set inp : Bytes := 35 :: (List.replicate d 46 ++ title ++ [58]) with hinp
    set s0 : Stream := ⟨inp, 0⟩ with hs0
    have hrest0 : s0.rest = 35 :: (List.replicate d 46 ++ title ++ [58]) := rfl
    have h1 : pByte 35 s0 = .ok true 35 (s0.advance 1) := pByte_head 35 s0 _ hrest0
    have hrest1 : (s0.advance 1).rest = List.replicate d 46 ++ (title ++ [58]) := by
      rw [Stream.rest_advance, hrest0]
      simp
    have h2 : pTakeWhile (fun c => c == 46) (s0.advance 1)
        = .ok (decide (List.replicate d 46 ≠ [])) (List.replicate d 46)
            ((s0.advance 1).advance (List.replicate d 46).length) :=
      pTakeWhile_split _ _ _ _ hrest1 (all_replicate_dot d)
        (hdots_stop [58] (headFails_cons (fun c => c == 46) 58 _ (by decide)))
    have hrest2 : ((s0.advance 1).advance (List.replicate d 46).length).rest
        = title ++ [58] :=
      rest_advance_append _ _ _ hrest1
    have h3 : pTakeWhile is_section_header_char
          ((s0.advance 1).advance (List.replicate d 46).length)
        = .ok (decide (title ≠ [])) title
            (((s0.advance 1).advance (List.replicate d 46).length).advance title.length) :=
      pTakeWhile_split _ _ _ _ hrest2 ht (headFails_cons _ _ _ (by decide))
    set s3 : Stream := ((s0.advance 1).advance (List.replicate d 46).length).advance title.length
      with hs3
    have hrest3 : s3.rest = [58] := rest_advance_append _ _ _ hrest2
    have h4 : pByte 58 s3 = .ok true 58 (s3.advance 1) := pByte_head 58 s3 _ hrest3
    have hrest4 : (s3.advance 1).rest = [] := by
      rw [Stream.rest_advance, hrest3]
      rfl
    have h5 : pSpaces1 (s3.advance 1) = .err false ⟨(s3.advance 1).pos, .expectedByte 32⟩ := by
      simp [pSpaces1, hrest4, List.takeWhile]
    have h6 : pSpaces (s3.advance 1) = .ok false () ((s3.advance 1).advance 0) := by
      simp [pSpaces, hrest4, List.takeWhile]
    have hrest5 : ((s3.advance 1).advance 0).rest = [] := by
      rw [Stream.rest_advance, hrest4]
      rfl
    have h7 : pByte 10 ((s3.advance 1).advance 0)
        = .err false ⟨((s3.advance 1).advance 0).pos, .expectedByte 10⟩ :=
      pByte_nil 10 _ hrest5
    simp only [section_header, pbind, pmap, pOptional, h1, h2, h3, h4, h5, h6, h7, pPure,
      Bool.or_false, Bool.or_true, Bool.true_or]
    simp only [hs3, hs0, Stream.advance_advance, Stream.advance]
    simp [List.length_replicate]
    omega

/-- Witness for C8: the header `#..sub-section:` followed by a newline parses to
depth 2, title `sub-section`, empty options; without the newline it fails. -/
theorem c8_header_roundtrip_witness :
    section_header ⟨35 :: (List.replicate 2 46 ++ strB "sub-section" ++ 58 :: 10 :: []), 0⟩
      = .ok true ⟨2, strB "sub-section", []⟩
          ⟨35 :: (List.replicate 2 46 ++ strB "sub-section" ++ 58 :: 10 :: []), 16⟩
    ∧ section_header ⟨35 :: (List.replicate 2 46 ++ strB "sub-section" ++ [58]), 0⟩
      = .err true ⟨15, .expectedByte 10⟩ :=
  c8_header_roundtrip 2 (strB "sub-section") [] (by decide)


/-! ### C9: the option-list round trip -/

/-- The rendering of one `key=value` option. -/
def renderOpt (kv : Bytes × Bytes) : Bytes := kv.1 ++ 61 :: kv.2

/-- The rendering of `("," option)*`, the tail of a comma-separated list. -/
def renderTail : List (Bytes × Bytes) → Bytes
  | [] => []
  | kv :: rest => 44 :: (renderOpt kv ++ renderTail rest)

/-- The rendering of a comma-separated option list. -/
def renderOpts : List (Bytes × Bytes) → Bytes
  | [] => []
  | kv :: rest => renderOpt kv ++ renderTail rest

/-- Well-formed pairs: keys and values nonempty over the option alphabet. -/
def wfPairs (pairs : List (Bytes × Bytes)) : Prop :=
  ∀ kv, kv ∈ pairs → kv.1 ≠ [] ∧ kv.1.all is_option_char = true
    ∧ kv.2 ≠ [] ∧ kv.2.all is_option_char = true

theorem headFails_renderTail (l : List (Bytes × Bytes)) :
    headFails is_option_char (renderTail l) := by
  cases l with
  | nil => exact headFails_nil _
  | cons kv t => exact headFails_cons _ 44 _ (by decide)

theorem renderTail_length_ge (l : List (Bytes × Bytes)) :
    l.length ≤ (renderTail l).length := by
  induction l with
  | nil => simp [renderTail]
  | cons kv t ih =>
    simp only [renderTail, List.length_cons, List.length_append]
    omega

theorem pOptionTail_render : ∀ (pairs : List (Bytes × Bytes)) (fuel : Nat) (s : Stream),
    wfPairs pairs → s.rest = renderTail pairs → pairs.length < fuel →
    pOptionTail fuel s
      = .ok (decide (pairs ≠ [])) pairs (s.advance (renderTail pairs).length) := by
  intro pairs
  induction pairs with
  | nil =>
    intro fuel s hwf hrest hfuel
    cases fuel with
    | zero => omega
    | succ k =>
      have hr : s.rest = [] := hrest
      simp only [pOptionTail, pByte_nil 44 s hr]
      simp [renderTail, Stream.advance]
  | cons kv t ih =>
    intro fuel s hwf hrest hfuel
    cases fuel with
    | zero => omega
    | succ k =>
      obtain ⟨hk0, hka, hv0, hva⟩ := hwf kv (by simp)
      have hrest' : s.rest = 44 :: (renderOpt kv ++ renderTail t) := hrest
      have h1 : pByte 44 s = .ok true 44 (s.advance 1) := pByte_head 44 s _ hrest'
      have hrest1 : (s.advance 1).rest = kv.1 ++ 61 :: (kv.2 ++ renderTail t) := by
        rw [Stream.rest_advance, hrest']
        simp [renderOpt]
      have h2 : option (s.advance 1)
          = .ok true kv ((s.advance 1).advance (kv.1.length + 1 + kv.2.length)) :=
        option_split (s.advance 1) kv.1 kv.2 (renderTail t) hrest1 hka hk0 hva hv0
          (headFails_renderTail t)
      have hrest2 : ((s.advance 1).advance (kv.1.length + 1 + kv.2.length)).rest
          = renderTail t := by
        have happ : (s.advance 1).rest = (kv.1 ++ 61 :: kv.2) ++ renderTail t := by
          rw [hrest1]
          simp
        have h4 := rest_advance_append (s.advance 1) (kv.1 ++ 61 :: kv.2) (renderTail t) happ
        have hlen : (kv.1 ++ 61 :: kv.2).length = kv.1.length + 1 + kv.2.length := by
          simp
          omega
        rw [hlen] at h4
        exact h4
      have h3 := ih k ((s.advance 1).advance (kv.1.length + 1 + kv.2.length))
        (fun kv2 hm => hwf kv2 (List.mem_cons_of_mem _ hm)) hrest2 (by simp at hfuel; omega)
      simp only [pOptionTail, h1, h2, h3]
      simp only [Stream.advance_advance, Stream.advance, renderTail, renderOpt]
      simp
      omega

/-- C9: for every well-formed comma-separated `key=value` list over the option
alphabet, the option-list parser consumes the whole rendering and returns the
map collecting exactly the listed pairs, and that map realises last-wins lookup
on duplicate keys (second conjunct); the empty list yields the empty mapping
without consuming input (the `decide` flag and `collectA []` cover this case). -/
theorem c9_option_list_roundtrip (pairs : List (Bytes × Bytes)) (hwf : wfPairs pairs) :
    option_list ⟨renderOpts pairs, 0⟩
      = .ok (decide (pairs ≠ [])) (collectA pairs)
          ⟨renderOpts pairs, (renderOpts pairs).length⟩
    ∧ (∀ k, lookupA (collectA pairs) k = lastValue pairs k) := by
  refine ⟨?_, fun k => lookupA_collectA pairs k⟩
  cases pairs with
  | nil => rfl
  | cons kv t =>
    obtain ⟨hk0, hka, hv0, hva⟩ := hwf kv (by simp)
    have hrest0 : (⟨renderOpts (kv :: t), 0⟩ : Stream).rest
        = kv.1 ++ 61 :: (kv.2 ++ renderTail t) := by
      show (renderOpts (kv :: t)).drop 0 = _
      simp [renderOpts, renderOpt]
    have h1 : option ⟨renderOpts (kv :: t), 0⟩
        = .ok true kv ((⟨renderOpts (kv :: t), 0⟩ : Stream).advance
            (kv.1.length + 1 + kv.2.length)) :=
      option_split _ kv.1 kv.2 (renderTail t) hrest0 hka hk0 hva hv0
        (headFails_renderTail t)
    have hrest1 : ((⟨renderOpts (kv :: t), 0⟩ : Stream).advance
        (kv.1.length + 1 + kv.2.length)).rest = renderTail t := by
      have happ : (⟨renderOpts (kv :: t), 0⟩ : Stream).rest
          = (kv.1 ++ 61 :: kv.2) ++ renderTail t := by
        rw [hrest0]
        simp
      have h4 := rest_advance_append _ (kv.1 ++ 61 :: kv.2) (renderTail t) happ
      have hlen : (kv.1 ++ 61 :: kv.2).length = kv.1.length + 1 + kv.2.length := by
        simp
        omega
      rw [hlen] at h4
      exact h4
    have hlen_inp : (renderOpts (kv :: t)).length
        = (kv.1.length + 1 + kv.2.length) + (renderTail t).length := by
      simp [renderOpts, renderOpt]
      omega
    have hfuel : t.length <
        ((⟨renderOpts (kv :: t), 0⟩ : Stream).advance
          (kv.1.length + 1 + kv.2.length)).input.length + 1
          - ((⟨renderOpts (kv :: t), 0⟩ : Stream).advance
              (kv.1.length + 1 + kv.2.length)).pos := by
      have hge := renderTail_length_ge t
      simp only [Stream.advance]
      simp [hlen_inp]
      omega
    have h2 := pOptionTail_render t _ _
      (fun kv2 hm => hwf kv2 (List.mem_cons_of_mem _ hm)) hrest1 hfuel
    simp only [option_list, pmap, sep_by_options, h1, h2]
    simp only [Stream.advance_advance, Stream.advance]
    simp [hlen_inp]

/-- Witness for C9: the list `encoding=utf-8,version=1.0,encoding=binary` maps
to exactly those keys with the later duplicate `encoding` winning. -/
theorem c9_option_list_roundtrip_witness :
    option_list ⟨renderOpts [(strB "encoding", strB "utf-8"), (strB "version", strB "1.0"),
        (strB "encoding", strB "binary")], 0⟩
      = .ok true
          (collectA [(strB "encoding", strB "utf-8"), (strB "version", strB "1.0"),
            (strB "encoding", strB "binary")])
          ⟨renderOpts [(strB "encoding", strB "utf-8"), (strB "version", strB "1.0"),
            (strB "encoding", strB "binary")], 42⟩ := by
  have h := (c9_option_list_roundtrip
    [(strB "encoding", strB "utf-8"), (strB "version", strB "1.0"),
     (strB "encoding", strB "binary")] (by simp [wfPairs, List.forall_mem_cons]; decide)).1
  simpa using h

end Diffx
